import Mathlib

/-!
Shallow embedding of the content-budgeting and bullet-lifecycle core of the
`lfc` news pipeline (Rust), together with proofs of its specified properties.

The embedding follows the source files:
  * `src/models.rs`   — `Bullet`, `Summary`, `NewsArticle`
  * `src/utils.rs`    — `format_summary_plain_text`
  * `src/app.rs`      — the carryover merge loop and the tail of `run_scraper`
  * `src/ai_deduplicator.rs` — the pure decision-application core of `ai_deduplicate`
  * `src/db.rs`       — the bullet store queries and updates, modelled relationally
  * `src/ai_summarizer.rs`   — `truncate_content`, `find_two_largest`,
    `decode_first_n_tokens`
-/

namespace LFC

/-- `models.rs`: `Bullet { text, accepted: Option<bool> }`. -/
structure Bullet where
  text : String
  accepted : Option Bool
deriving DecidableEq, Repr

/-- `models.rs`: `Summary { mood, items, date }` (the date is modelled as a number). -/
structure Summary where
  mood : String
  items : List Bullet
  date : Nat
deriving DecidableEq, Repr

/-- `models.rs`: `NewsArticle`; URLs and timestamps are modelled as plain data,
only `og_title` and `text` are consumed by the core algorithms. -/
structure NewsArticle where
  url : String
  og_title : String
  published_time : Nat
  og_image : String
  author : String
  text : String
  source : String
deriving DecidableEq, Repr

/-! ## `utils.rs`: plain-text rendering of a summary -/

/-- `utils.rs::format_summary_plain_text`: mood sentence, then `- {text}\n\n`
for every bullet with `accepted == Some(true)`, then a final trim. -/
def format_summary_plain_text (s : Summary) : String :=
  ((s.items.foldl
      (fun out b =>
        if b.accepted = some true then out ++ ("- " ++ b.text ++ "\n\n") else out)
      (s.mood ++ "\n\n"))).trim

/-- Concatenation of a list of strings (used by the specification-shaped
rendering below). -/
def concatAll : List String → String
  | [] => ""
  | s :: rest => s ++ concatAll rest

/-- The specification-shaped rendering: the mood sentence followed by exactly
the accepted bullets, in summary order. -/
def spec_plain_text (s : Summary) : String :=
  (s.mood ++ "\n\n" ++
    concatAll ((s.items.filter fun b => decide (b.accepted = some true)).map
      fun b => "- " ++ b.text ++ "\n\n")).trim

/-! ## `app.rs`: carryover merge -/

/-- The carryover loop of `app.rs::run_scraper`: for each carryover bullet whose
text is not in `seen`, reset `accepted` to `None` and push it. -/
def merge_carryover_loop (seen : List String) (acc : List Bullet) :
    List Bullet → List Bullet
  | [] => acc
  | b :: rest =>
    if seen.contains b.text then
      merge_carryover_loop seen acc rest
    else
      merge_carryover_loop (b.text :: seen) (acc ++ [{ b with accepted := none }]) rest

/-- `app.rs::run_scraper` steps 10–11: seed the seen-set with today's texts and
append the not-yet-seen carryover bullets. -/
def merge_carryover (today carryover : List Bullet) : List Bullet :=
  merge_carryover_loop (today.map Bullet.text) today carryover

/-! ## `ai_deduplicator.rs`: applying classifier decisions -/

/-- Failure modes of the deduplication step (`ai_deduplicator.rs`): the result
count mismatch bail-out and the missing-content bail-out. -/
inductive DedupError where
  | resultCountMismatch (got expected : Nat)
  | noContent
deriving DecidableEq, Repr

/-- The pure core of `ai_deduplicator.rs::ai_deduplicate` once the classifier
response has been parsed into `results`: bail out with `ResultCountMismatch`
when `results.len() != current_summary.items.len()`, otherwise zip the
decisions onto the bullets in order. -/
def apply_dedup_results (results : List Bool) (current : Summary) :
    Except DedupError Summary :=
  if results.length ≠ current.items.length then
    .error (.resultCountMismatch results.length current.items.length)
  else
    .ok { mood := current.mood
          date := current.date
          items := (current.items.zip results).map
            fun p => { text := p.1.text, accepted := some p.2 } }

/-! ## `db.rs`: the bullet store, modelled relationally -/

/-- A row of the `summaries` table as used by the queries in `db.rs`
(`fetch_id`, `mood_text`, and the denormalized `sent` and `generated_at`
columns referenced by the SQL). -/
structure SummaryRow where
  fetch_id : Nat
  mood_text : String
  sent : Bool
  generated_at : Nat
deriving DecidableEq, Repr

/-- A row of the `bullets` table (`id`, `fetch_id`, `text`, nullable
`accepted`). -/
structure BulletRow where
  id : Nat
  fetch_id : Nat
  text : String
  accepted : Option Bool
deriving DecidableEq, Repr

/-- The relational store: the two tables the bullet-lifecycle queries touch. -/
structure Store where
  summaries : List SummaryRow
  bullets : List BulletRow
deriving DecidableEq, Repr

/-- `db.rs::insert_summary`: one transaction inserting the mood row and one
bullet row per item, with its final `accepted` value.  The `sent = 0` and
`generated_at` column defaults come from the schema; the schema file is not in
the sources, so those defaults are modelled from the spec (a fetch is created
unsent, stamped with its generation time `now`). -/
def insert_summary (st : Store) (fetch_id : Nat) (now : Nat) (s : Summary) : Store :=
  { summaries := st.summaries ++
      [{ fetch_id := fetch_id, mood_text := s.mood, sent := false, generated_at := now }]
    bullets := st.bullets ++
      (s.items.enum.map fun p =>
        { id := st.bullets.length + p.1, fetch_id := fetch_id,
          text := p.2.text, accepted := p.2.accepted }) }

/-- `db.rs::mark_summary_sent`: `UPDATE summaries SET sent = 1 WHERE fetch_id = ?`. -/
def mark_summary_sent (st : Store) (fetch_id : Nat) : Store :=
  { st with
    summaries := st.summaries.map
      (fun r => if r.fetch_id = fetch_id then { r with sent := true } else r) }

/-- The `COALESCE((SELECT MAX(generated_at) FROM summaries WHERE sent = 1), sentinel)`
subquery of `db.rs::fetch_unpublished_accepted_bullets_since_last_published`;
the RFC3339 sentinel `'0001-01-01T00:00:00Z'`, below every real timestamp,
is modelled as `0`. -/
def last_published_generated_at (st : Store) : Nat :=
  (((st.summaries.filter fun s => s.sent).map fun s => s.generated_at).foldr max 0)

/-- `db.rs::fetch_unpublished_accepted_bullets_since_last_published`:
`SELECT DISTINCT b.text, b.accepted FROM bullets b JOIN summaries s ON
s.fetch_id = b.fetch_id WHERE s.sent = 0 AND b.accepted = 1 AND
s.generated_at > COALESCE(MAX(generated_at of published), sentinel)`.
The join is a flat product on matching `fetch_id`; `DISTINCT` is `dedup`. -/
def fetch_unpublished_accepted_bullets_since_last_published (st : Store) :
    List Bullet :=
  let threshold := last_published_generated_at st
  let joined := st.bullets.flatMap fun b =>
    (st.summaries.filter fun s => s.fetch_id == b.fetch_id).map fun s => (b, s)
  let rows := joined.filter fun p =>
    decide (p.2.sent = false ∧ p.1.accepted = some true ∧ threshold < p.2.generated_at)
  ((rows.map fun p => ({ text := p.1.text, accepted := p.1.accepted } : Bullet))).dedup

/-- The tail of `app.rs::run_scraper` after the classifier response is parsed:
apply the decisions (aborting the run on a mismatch, before any persistence),
persist the processed summary, attempt the configured notification channels
(outcomes are only logged), then mark the fetch sent.  Returns the final store
and the notification log lines. -/
def run_after_classify (st : Store) (fetch_id : Nat) (now : Nat) (merged : Summary)
    (results : List Bool) (no_email no_telegram email_ok telegram_ok : Bool) :
    Store × List String :=
  match apply_dedup_results results merged with
  | .error _ => (st, ["dedup step failed, run aborted"])
  | .ok processed =>
    let st1 := insert_summary st fetch_id now processed
    let email_log :=
      if no_email then "skipping email notifications"
      else if email_ok then "Email(s) sent." else "Email(s) failed"
    let telegram_log :=
      if no_telegram then "skipping telegram notifications"
      else if telegram_ok then "Telegram(s) sent." else "Telegram(s) failed"
    (mark_summary_sent st1 fetch_id, [email_log, telegram_log])

/-! ## `ai_summarizer.rs`: token-budget truncation -/

/-- `ai_summarizer.rs`: `MAX_TOKENS`. -/
def MAX_TOKENS : Nat := 100000

/-- `ai_summarizer.rs`: `MIN_BODY_TOKENS` ("don't over-trim tiny bodies"). -/
def MIN_BODY_TOKENS : Nat := 40

/-- `ai_summarizer.rs`: `SEP_TOKENS_PER_ARTICLE` (buffer for the join). -/
def SEP_TOKENS_PER_ARTICLE : Nat := 6

/-- The tokenizer collaborator (`tiktoken_rs::CoreBPE`): `encode` returns the
token ids of a string, `decode` may fail (the code falls back to `""`). -/
structure BPE where
  encode : String → List Nat
  decode : List Nat → Option String

/-- `ai_summarizer.rs::decode_first_n_tokens`: decode the first `min n (len ids)`
tokens of `s`, the empty string for `n = 0` or empty input, `""` on decode
failure (`unwrap_or_default`). -/
def decode_first_n_tokens (bpe : BPE) (s : String) (n : Nat) : String :=
  if n = 0 ∨ s.isEmpty then ""
  else
    let ids := bpe.encode s
    let keep := min ids.length n
    (bpe.decode (ids.take keep)).getD ""

/-- The closure `find_two_largest` of `ai_summarizer.rs::truncate_content`:
one pass over the indices, tracking the largest and second-largest entries
strictly above `minB`; the fold step mirrors the Rust `match` exactly. -/
def ftl_step (keep : List Nat) (minB : Nat)
    (acc : Option Nat × Option Nat) (i : Nat) : Option Nat × Option Nat :=
  if keep.getD i 0 ≤ minB then acc
  else
    match acc with
    | (none, s) => (some i, s)
    | (some mi, s) =>
      if keep.getD mi 0 < keep.getD i 0 then (some i, some mi)
      else if ((match s with
                | none => true
                | some si => decide (keep.getD si 0 < keep.getD i 0)) && (i != mi)) then
        (some mi, some i)
      else (some mi, s)

/-- `find_two_largest`: indices of the largest and second-largest trimmable
bodies (`second` defaults to `max` via `unwrap_or`), `none` when no body is
strictly above `minB`. -/
def find_two_largest (minB : Nat) (keep : List Nat) : Option (Nat × Nat) :=
  match (List.range keep.length).foldl (ftl_step keep minB) (none, none) with
  | (none, _) => none
  | (some mi, s) => some (mi, s.getD mi)

/-- The shave computation of one loop iteration of `truncate_content`:
target the second-largest length (or the floor), force at least one token
when all trimmable bodies are tied, and never take more than still needed. -/
def shaveAmount (maxT minB max_len second_len total : Nat) : Nat :=
  let needed := total - maxT
  let target_len := max second_len minB
  let diff0 := max_len - target_len
  let diff := if diff0 = 0 then max (min (max_len - minB) needed) 1 else diff0
  min diff needed

/-- The `while total > MAX_TOKENS` levelling loop of `truncate_content`,
with an explicit fuel (the loop shaves at least one token per iteration, so
`fuel = total` always suffices; see the termination theorems). -/
def truncLoop (maxT minB : Nat) : Nat → List Nat → Nat → List Nat × Nat
  | 0, keep, total => (keep, total)
  | fuel + 1, keep, total =>
    if total ≤ maxT then (keep, total)
    else
      match find_two_largest minB keep with
      | none => (keep, total)
      | some (imax, isecond) =>
        let shave := shaveAmount maxT minB (keep.getD imax 0) (keep.getD isecond 0) total
        if shave = 0 then (keep, total)
        else truncLoop maxT minB fuel (keep.set imax (keep.getD imax 0 - shave)) (total - shave)

/-- The token-budget plan of `truncate_content`: initial `keep` is every body's
full token count; if the estimate fits, nothing is trimmed, otherwise the
levelling loop runs. Returns the final per-article kept counts and the final
total estimate. -/
def truncPlan (maxT minB sep : Nat) (title_tok body_tok : List Nat) :
    List Nat × Nat :=
  let total := title_tok.sum + body_tok.sum + sep * body_tok.length
  if total ≤ maxT then (body_tok, total)
  else truncLoop maxT minB total body_tok total

/-- `ai_summarizer.rs::truncate_content`: count tokens, return the untouched
concatenation when the estimate fits, otherwise level the largest bodies and
rebuild each article from its first `keep[i]` tokens. -/
def truncate_content (bpe : BPE) (articles : List NewsArticle) : String :=
  let title_tok := articles.map fun a => (bpe.encode a.og_title).length
  let body_tok := articles.map fun a => (bpe.encode a.text).length
  let total := title_tok.sum + body_tok.sum + SEP_TOKENS_PER_ARTICLE * articles.length
  if total ≤ MAX_TOKENS then
    String.intercalate "\n\n" (articles.map fun a => a.og_title ++ "\n\n" ++ a.text)
  else
    let keepF := (truncLoop MAX_TOKENS MIN_BODY_TOKENS total body_tok total).1
    String.intercalate "\n\n" ((articles.zip keepF).map
      fun p => p.1.og_title ++ "\n\n" ++ decode_first_n_tokens bpe p.1.text p.2)

/-! ## Helper lemmas -/

/-- Unrolling the rendering fold: it appends exactly the accepted bullets'
lines to the initial string. -/
theorem format_foldl_eq (l : List Bullet) (init : String) :
    l.foldl
      (fun out b =>
        if b.accepted = some true then out ++ ("- " ++ b.text ++ "\n\n") else out)
      init
    = init ++ concatAll ((l.filter fun b => decide (b.accepted = some true)).map
        fun b => "- " ++ b.text ++ "\n\n") := by
  induction l generalizing init with
  | nil => simp [concatAll]
  | cons b t ih =>
    simp only [List.foldl_cons]
    rw [ih]
    by_cases hb : b.accepted = some true
    · simp [hb, concatAll, String.append_assoc]
    · simp [hb]

/-- The merge loop only ever appends bullets, and every appended bullet has
its `accepted` field reset to `none`. -/
theorem merge_loop_append (carry : List Bullet) :
    ∀ seen acc, ∃ tail, merge_carryover_loop seen acc carry = acc ++ tail ∧
      ∀ b ∈ tail, b.accepted = none := by
  induction carry with
  | nil => exact fun seen acc => ⟨[], by simp [merge_carryover_loop]⟩
  | cons b rest ih =>
    intro seen acc
    by_cases hb : b.text ∈ seen
    · obtain ⟨tail, htail, hnone⟩ := ih seen acc
      exact ⟨tail, by simp [merge_carryover_loop, hb, htail], hnone⟩
    · obtain ⟨tail, htail, hnone⟩ := ih (b.text :: seen) (acc ++ [{ b with accepted := none }])
      refine ⟨{ b with accepted := none } :: tail, ?_, ?_⟩
      · simp [merge_carryover_loop, hb, htail]
      · intro x hx
        rcases List.mem_cons.mp hx with hx | hx
        · simp [hx]
        · exact hnone x hx

/-- The merge loop preserves distinctness of texts, as long as every text
already in the accumulator is recorded in `seen`. -/
theorem merge_loop_nodup (carry : List Bullet) :
    ∀ seen acc, (acc.map Bullet.text).Nodup →
      (∀ t ∈ acc.map Bullet.text, t ∈ seen) →
      ((merge_carryover_loop seen acc carry).map Bullet.text).Nodup := by
  induction carry with
  | nil => intro seen acc hnd _; simpa [merge_carryover_loop] using hnd
  | cons b rest ih =>
    intro seen acc hnd hseen
    by_cases hb : b.text ∈ seen
    · simpa [merge_carryover_loop, hb] using ih seen acc hnd hseen
    · have hnotacc : b.text ∉ acc.map Bullet.text := fun hmem => hb (hseen _ hmem)
      have hnd' : ((acc ++ [{ b with accepted := none }]).map Bullet.text).Nodup := by
        rw [List.map_append]
        refine List.Nodup.append hnd (by simp) ?_
        intro t ht ht'
        have : t = b.text := by simpa using ht'
        exact hnotacc (this ▸ ht)
      have hseen' : ∀ t ∈ (acc ++ [{ b with accepted := none }]).map Bullet.text,
          t ∈ b.text :: seen := by
        intro t ht
        simp only [List.map_append, List.mem_append, List.map_cons, List.map_nil,
          List.mem_cons] at ht ⊢
        rcases ht with ht | ht
        · exact Or.inr (hseen t ht)
        · simp at ht
          exact Or.inl ht
      simpa [merge_carryover_loop, hb] using
        ih (b.text :: seen) (acc ++ [{ b with accepted := none }]) hnd' hseen'

/-! ## Claim theorems: rendering and merging -/

/-- C10: the delivered plain-text rendering is the mood sentence followed by
exactly the bullets whose `accepted` field is `Some(true)`, in summary order;
bullets with `accepted = None` or `Some(false)` never appear. -/
theorem plain_text_renders_accepted_bullets (s : Summary) :
    format_summary_plain_text s = spec_plain_text s := by
  unfold format_summary_plain_text spec_plain_text
  rw [format_foldl_eq, String.append_assoc]

/-- C7: every merge output starts with all of today's bullets, in their
original order, followed by a tail of appended carryover bullets whose
`accepted` field has been reset to `None`. -/
theorem merge_preserves_today_prefix (today carryover : List Bullet) :
    ∃ tail, merge_carryover today carryover = today ++ tail ∧
      ∀ b ∈ tail, b.accepted = none :=
  merge_loop_append carryover (today.map Bullet.text) today

/-- C2 (counterexample): the merge of a today-list that already contains two
bullets with identical text produces an output with duplicate texts, so the
no-duplicate-text invariant does not hold for every merge. -/
theorem merge_duplicate_today_counterexample :
    ¬ ((merge_carryover [⟨"A", none⟩, ⟨"A", none⟩] []).map Bullet.text).Nodup := by
  decide

/-- C2 (amended): whenever today's bullet texts are pairwise distinct, no two
items of the merge output share identical text (exact string equality being
the dedup key); carryover never introduces a duplicate. -/
theorem merge_nodup_of_today_nodup (today carryover : List Bullet)
    (h : (today.map Bullet.text).Nodup) :
    ((merge_carryover today carryover).map Bullet.text).Nodup :=
  merge_loop_nodup carryover (today.map Bullet.text) today h (fun _ ht => ht)

/-- C2 (witness): the amended no-duplicate theorem at the spec's own scenario
`merge(today=[A], carryover=[A, B])`. -/
theorem merge_nodup_witness :
    ((merge_carryover [⟨"A", none⟩] [⟨"A", some true⟩, ⟨"B", some true⟩]).map
      Bullet.text).Nodup :=
  merge_nodup_of_today_nodup [⟨"A", none⟩] [⟨"A", some true⟩, ⟨"B", some true⟩]
    (by decide)

/-! ## Claim theorems: classifier contract and publication -/

/-- C1: on any length mismatch between the classifier's `results` and the
candidate bullets, the classify step returns the hard `ResultCountMismatch`
error, and the run aborts with the store untouched — no bullets of the fetch
are persisted. -/
theorem dedup_mismatch_aborts_without_persisting (results : List Bool)
    (merged : Summary) (h : results.length ≠ merged.items.length) :
    apply_dedup_results results merged =
      Except.error (DedupError.resultCountMismatch results.length merged.items.length) ∧
    ∀ st fetch_id now no_email no_telegram email_ok telegram_ok,
      (run_after_classify st fetch_id now merged results
        no_email no_telegram email_ok telegram_ok).1 = st := by
  have herr : apply_dedup_results results merged =
      Except.error (DedupError.resultCountMismatch results.length merged.items.length) := by
    simp [apply_dedup_results, h]
  exact ⟨herr, fun st _ _ _ _ _ _ => by simp [run_after_classify, herr]⟩

/-- C1 (witness): a concrete mismatched response (0 results for 1 candidate)
yields the hard error and leaves a concrete store unchanged. -/
theorem dedup_mismatch_witness :
    apply_dedup_results [] ⟨"m", [⟨"A", none⟩], 0⟩ =
      Except.error (DedupError.resultCountMismatch 0 1) ∧
    (run_after_classify ⟨[], []⟩ 1 5 ⟨"m", [⟨"A", none⟩], 0⟩ []
      false false false false).1 = ⟨[], []⟩ := by
  have h := dedup_mismatch_aborts_without_persisting [] ⟨"m", [⟨"A", none⟩], 0⟩
    (by decide)
  exact ⟨h.1, h.2 ⟨[], []⟩ 1 5 false false false false⟩

/-- C4 (counterexample): with email configured (`no_email = false`) and the
email send failing (`email_ok = false`), the run still ends with the fetch's
summary row marked `sent = true` — the flag is set even though a configured
notification channel failed, contradicting the claim. -/
theorem sent_after_failed_channel_counterexample :
    ((run_after_classify ⟨[], []⟩ 1 5 ⟨"mood", [⟨"A", none⟩], 0⟩ [true]
        false true false true).1.summaries.map fun r => (r.fetch_id, r.sent))
      = [(1, true)] := by
  decide

/-- C4 (amended): whenever the classify step succeeds, `sent` is set to `true`
at the very end of the run — after the summary and its bullets are persisted
and after every configured notification channel has been attempted — but the
resulting store is independent of the notification outcomes: a failed channel
is only logged and does not prevent the fetch from being marked sent.  (When
the classify step fails, the store is untouched and `sent` is never set.) -/
theorem sent_follows_persistence_not_notifications (st : Store)
    (fetch_id now : Nat) (merged : Summary) (results : List Bool)
    (no_email no_telegram email_ok telegram_ok : Bool)
    (h : results.length = merged.items.length) :
    ∃ processed, apply_dedup_results results merged = Except.ok processed ∧
      (run_after_classify st fetch_id now merged results
        no_email no_telegram email_ok telegram_ok).1 =
        mark_summary_sent (insert_summary st fetch_id now processed) fetch_id ∧
      (run_after_classify st fetch_id now merged results
        no_email no_telegram email_ok telegram_ok).1 =
        (run_after_classify st fetch_id now merged results
          no_email no_telegram true true).1 := by
  refine ⟨{ mood := merged.mood, date := merged.date,
            items := (merged.items.zip results).map
              fun p => { text := p.1.text, accepted := some p.2 } }, ?_, ?_, ?_⟩
  · simp [apply_dedup_results, h]
  · simp [run_after_classify, apply_dedup_results, h]
  · simp [run_after_classify, apply_dedup_results, h]

/-- C4 (witness): the amended theorem at a concrete run with a failed email
channel: the final store equals persist-then-mark-sent and coincides with the
all-channels-succeeded store. -/
theorem sent_follows_persistence_witness :
    ∃ processed,
      apply_dedup_results [true] ⟨"mood", [⟨"A", none⟩], 0⟩ = Except.ok processed ∧
      (run_after_classify ⟨[], []⟩ 1 5 ⟨"mood", [⟨"A", none⟩], 0⟩ [true]
        false true false true).1 =
        mark_summary_sent (insert_summary ⟨[], []⟩ 1 5 processed) 1 ∧
      (run_after_classify ⟨[], []⟩ 1 5 ⟨"mood", [⟨"A", none⟩], 0⟩ [true]
        false true false true).1 =
        (run_after_classify ⟨[], []⟩ 1 5 ⟨"mood", [⟨"A", none⟩], 0⟩ [true]
          false true true true).1 :=
  sent_follows_persistence_not_notifications ⟨[], []⟩ 1 5 ⟨"mood", [⟨"A", none⟩], 0⟩
    [true] false true false true (by decide)

/-! ## Claim theorems: truncation no-op -/

/-- C8: when the initial token estimate already fits the budget, truncation
returns the untouched concatenation of title+body pairs (bodies verbatim, not
tokenizer round-tripped), and zero articles yield the empty string. -/
theorem truncate_content_noop (bpe : BPE) (articles : List NewsArticle)
    (h : (articles.map fun a => (bpe.encode a.og_title).length).sum +
         (articles.map fun a => (bpe.encode a.text).length).sum +
         SEP_TOKENS_PER_ARTICLE * articles.length ≤ MAX_TOKENS) :
    truncate_content bpe articles =
      String.intercalate "\n\n" (articles.map fun a => a.og_title ++ "\n\n" ++ a.text) ∧
    truncate_content bpe [] = "" := by
  constructor
  · unfold truncate_content
    rw [if_pos h]
  · rfl

/-- C8 (witness): a concrete tokenizer and a one-article list within budget:
the output is the verbatim title+body concatenation, and the empty list gives
the empty string. -/
theorem truncate_content_noop_witness :
    truncate_content ⟨fun _ => [0], fun _ => none⟩
        [⟨"u", "T", 0, "i", "a", "B", "s"⟩] =
      String.intercalate "\n\n"
        (([⟨"u", "T", 0, "i", "a", "B", "s"⟩] : List NewsArticle).map
          fun a => a.og_title ++ "\n\n" ++ a.text) ∧
    truncate_content ⟨fun _ => [0], fun _ => none⟩ [] = "" :=
  truncate_content_noop ⟨fun _ => [0], fun _ => none⟩
    [⟨"u", "T", 0, "i", "a", "B", "s"⟩] (by decide)

/-! ## Helper lemmas for the truncation loop -/

/-- Setting an in-range index, then reading it back with a default. -/
theorem getD_set_self (l : List Nat) (i v : Nat) (h : i < l.length) :
    (l.set i v).getD i 0 = v := by
  simp [List.getD_eq_getElem?_getD, List.getElem?_set, h]

/-- Setting one index leaves every other index's default read unchanged. -/
theorem getD_set_ne (l : List Nat) (i j v : Nat) (h : j ≠ i) :
    (l.set i v).getD j 0 = l.getD j 0 := by
  simp [List.getD_eq_getElem?_getD, List.getElem?_set, Ne.symm h]

/-- Shaving `s` tokens off one in-range entry lowers the sum by exactly `s`. -/
theorem sum_set_sub (l : List Nat) (i s : Nat) (h : i < l.length)
    (hs : s ≤ l.getD i 0) :
    (l.set i (l.getD i 0 - s)).sum + s = l.sum := by
  induction l generalizing i with
  | nil => simp at h
  | cons a t ih =>
    cases i with
    | zero =>
      simp only [List.getD_cons_zero] at hs
      simp only [List.set_cons_zero, List.sum_cons, List.getD_cons_zero]
      omega
    | succ n =>
      have h' : n < t.length := by simpa using h
      have hs' : s ≤ t.getD n 0 := by simpa using hs
      have := ih n h' hs'
      simp only [List.set_cons_succ, List.sum_cons, List.getD_cons_succ]
      omega

/-- One shave takes at most what is still needed. -/
theorem shaveAmount_le_needed (maxT minB ml sl total : Nat) :
    shaveAmount maxT minB ml sl total ≤ total - maxT := by
  unfold shaveAmount
  dsimp only
  split <;> omega

/-- While over budget with a trimmable maximum, one shave takes at least one
token (the forced minimum when every trimmable body is tied). -/
theorem shaveAmount_pos (maxT minB ml sl total : Nat)
    (hgt : maxT < total) (hml : minB < ml) :
    1 ≤ shaveAmount maxT minB ml sl total := by
  unfold shaveAmount
  dsimp only
  split <;> omega

/-- One shave never takes the maximum body below the floor. -/
theorem shaveAmount_le_floor (maxT minB ml sl total : Nat) (hml : minB < ml) :
    shaveAmount maxT minB ml sl total ≤ ml - minB := by
  unfold shaveAmount
  dsimp only
  split <;> omega

/-- The `find_two_largest` fold only ever designates in-range indices whose
entry is strictly above the floor as the current maximum. -/
theorem ftl_fold_inv (keep : List Nat) (minB : Nat) :
    ∀ (l : List Nat) (acc : Option Nat × Option Nat),
      (∀ i ∈ l, i < keep.length) →
      (∀ mi, acc.1 = some mi → mi < keep.length ∧ minB < keep.getD mi 0) →
      ∀ mi, (l.foldl (ftl_step keep minB) acc).1 = some mi →
        mi < keep.length ∧ minB < keep.getD mi 0 := by
  intro l
  induction l with
  | nil => intro acc _ hacc mi h; exact hacc mi h
  | cons a t ih =>
    intro acc hl hacc mi h
    refine ih (ftl_step keep minB acc a)
      (fun i hi => hl i (List.mem_cons_of_mem a hi)) ?_ mi h
    intro mj hj
    have ha : a < keep.length := hl a (List.mem_cons_self a t)
    unfold ftl_step at hj
    by_cases hle : keep.getD a 0 ≤ minB
    · rw [if_pos hle] at hj
      exact hacc mj hj
    · rw [if_neg hle] at hj
      have haq : minB < keep.getD a 0 := Nat.not_le.mp hle
      obtain ⟨a1, a2⟩ := acc
      cases a1 with
      | none =>
        simp only at hj
        injection hj with hj'
        subst hj'
        exact ⟨ha, haq⟩
      | some mi0 =>
        simp only at hj
        split at hj
        · simp only [Prod.fst] at hj
          injection hj with hj'
          subst hj'
          exact ⟨ha, haq⟩
        · split at hj
          · simp only [Prod.fst] at hj
            injection hj with hj'
            subst hj'
            exact hacc _ rfl
          · simp only [Prod.fst] at hj
            injection hj with hj'
            subst hj'
            exact hacc _ rfl

/-- Once the fold has a current maximum it never loses it. -/
theorem ftl_fold_stay_some (keep : List Nat) (minB : Nat) :
    ∀ (l : List Nat) (acc : Option Nat × Option Nat),
      acc.1 ≠ none → (l.foldl (ftl_step keep minB) acc).1 ≠ none := by
  intro l
  induction l with
  | nil => intro acc h; exact h
  | cons a t ih =>
    intro acc h
    refine ih (ftl_step keep minB acc a) ?_
    unfold ftl_step
    by_cases hle : keep.getD a 0 ≤ minB
    · rw [if_pos hle]; exact h
    · rw [if_neg hle]
      obtain ⟨a1, a2⟩ := acc
      cases a1 with
      | none => simp
      | some mi0 =>
        simp only
        split
        · simp
        · split <;> simp

/-- If some index in the remaining work list is strictly above the floor, the
fold ends with a current maximum. -/
theorem ftl_fold_finds (keep : List Nat) (minB : Nat) :
    ∀ (l : List Nat) (acc : Option Nat × Option Nat),
      (∃ i ∈ l, minB < keep.getD i 0) →
      (l.foldl (ftl_step keep minB) acc).1 ≠ none := by
  intro l
  induction l with
  | nil => intro acc h; simp at h
  | cons a t ih =>
    intro acc h
    by_cases haq : minB < keep.getD a 0
    · refine ftl_fold_stay_some keep minB t (ftl_step keep minB acc a) ?_
      unfold ftl_step
      rw [if_neg (Nat.not_le.mpr haq)]
      obtain ⟨a1, a2⟩ := acc
      cases a1 with
      | none => simp
      | some mi0 =>
        simp only
        split
        · simp
        · split <;> simp
    · obtain ⟨i, hi, hiq⟩ := h
      rcases List.mem_cons.mp hi with rfl | hi'
      · exact absurd hiq haq
      · exact ih (ftl_step keep minB acc a) ⟨i, hi', hiq⟩

/-- `find_two_largest` only returns an in-range maximum strictly above the
floor. -/
theorem find_two_largest_some (minB : Nat) (keep : List Nat) (i j : Nat)
    (h : find_two_largest minB keep = some (i, j)) :
    i < keep.length ∧ minB < keep.getD i 0 := by
  unfold find_two_largest at h
  rcases hacc : (List.range keep.length).foldl (ftl_step keep minB) (none, none) with
    ⟨a1, a2⟩
  rw [hacc] at h
  cases a1 with
  | none => simp at h
  | some mi =>
    simp only at h
    injection h with h'
    have hmi : mi = i := congrArg Prod.fst h'
    have hfst : ((List.range keep.length).foldl (ftl_step keep minB)
        (none, none)).1 = some mi := by rw [hacc]
    exact hmi ▸ ftl_fold_inv keep minB (List.range keep.length) (none, none)
      (fun x hx => List.mem_range.mp hx) (fun mj hj => by simp at hj) mi hfst

/-- When `find_two_largest` finds nothing, every body is at or below the
floor. -/
theorem find_two_largest_none (minB : Nat) (keep : List Nat)
    (h : find_two_largest minB keep = none) :
    ∀ x ∈ keep, x ≤ minB := by
  intro x hx
  by_contra hgt
  have hgt' : minB < x := Nat.not_le.mp hgt
  obtain ⟨n, hn, hxn⟩ := List.mem_iff_getElem.mp hx
  have hq : minB < keep.getD n 0 := by
    rw [List.getD_eq_getElem keep 0 hn, hxn]
    exact hgt'
  have hne := ftl_fold_finds keep minB (List.range keep.length) (none, none)
    ⟨n, List.mem_range.mpr hn, hq⟩
  unfold find_two_largest at h
  rcases hacc : (List.range keep.length).foldl (ftl_step keep minB) (none, none) with
    ⟨a1, a2⟩
  rw [hacc] at h
  cases a1 with
  | none => exact hne (by rw [hacc])
  | some mi => simp at h

/-- With the budget already met, the loop is the identity at any fuel. -/
theorem truncLoop_of_le (maxT minB : Nat) (keep : List Nat) (total : Nat)
    (h : total ≤ maxT) :
    ∀ fuel, truncLoop maxT minB fuel keep total = (keep, total) := by
  intro fuel
  cases fuel with
  | zero => rfl
  | succ f => simp [truncLoop, h]

/-- With nothing left to trim, the loop is the identity at any fuel. -/
theorem truncLoop_of_none (maxT minB : Nat) (keep : List Nat) (total : Nat)
    (hf : find_two_largest minB keep = none) :
    ∀ fuel, truncLoop maxT minB fuel keep total = (keep, total) := by
  intro fuel
  cases fuel with
  | zero => rfl
  | succ f =>
    by_cases hle : total ≤ maxT
    · simp [truncLoop, hle]
    · simp [truncLoop, hle, hf]

/-- One non-exiting iteration of the loop: it shaves `shaveAmount` (which is
positive) off the designated maximum and off the running total. -/
theorem truncLoop_step (maxT minB total fuel : Nat) (keep : List Nat) (i j : Nat)
    (hgt : maxT < total) (hf : find_two_largest minB keep = some (i, j)) :
    truncLoop maxT minB (fuel + 1) keep total =
      truncLoop maxT minB fuel
        (keep.set i
          (keep.getD i 0 - shaveAmount maxT minB (keep.getD i 0) (keep.getD j 0) total))
        (total - shaveAmount maxT minB (keep.getD i 0) (keep.getD j 0) total) := by
  have hspec := find_two_largest_some minB keep i j hf
  have hpos := shaveAmount_pos maxT minB (keep.getD i 0) (keep.getD j 0) total hgt hspec.2
  have hne0 : ¬ shaveAmount maxT minB (keep.getD i 0) (keep.getD j 0) total = 0 := by
    omega
  simp only [truncLoop]
  rw [if_neg (Nat.not_le.mpr hgt), hf]
  dsimp only
  rw [if_neg hne0]

/-- Given at least `total - maxT` fuel the loop always exits properly: either
the budget is met or nothing trimmable remains. -/
theorem truncLoop_exit_cond (maxT minB : Nat) :
    ∀ fuel keep total, total - maxT ≤ fuel →
      (truncLoop maxT minB fuel keep total).2 ≤ maxT ∨
      ∀ x ∈ (truncLoop maxT minB fuel keep total).1, x ≤ minB := by
  intro fuel
  induction fuel with
  | zero =>
    intro keep total h
    rw [truncLoop_of_le maxT minB keep total (by omega) 0]
    exact Or.inl (by omega)
  | succ fuel ih =>
    intro keep total h
    by_cases hle : total ≤ maxT
    · rw [truncLoop_of_le maxT minB keep total hle]
      exact Or.inl hle
    · have hgt : maxT < total := Nat.not_le.mp hle
      rcases hf : find_two_largest minB keep with _ | ⟨i, j⟩
      · rw [truncLoop_of_none maxT minB keep total hf]
        exact Or.inr (fun x hx => find_two_largest_none minB keep hf x hx)
      · have hspec := find_two_largest_some minB keep i j hf
        have hpos := shaveAmount_pos maxT minB (keep.getD i 0) (keep.getD j 0) total
          hgt hspec.2
        rw [truncLoop_step maxT minB total fuel keep i j hgt hf]
        exact ih _ _ (by omega)

/-- The loop's running total tracks the sum of kept body tokens exactly: the
two decrease in lockstep. -/
theorem truncLoop_total_sum (maxT minB : Nat) :
    ∀ fuel keep total,
      (truncLoop maxT minB fuel keep total).2 + keep.sum =
        total + (truncLoop maxT minB fuel keep total).1.sum := by
  intro fuel
  induction fuel with
  | zero =>
    intro keep total
    show (keep, total).2 + keep.sum = total + (keep, total).1.sum
    dsimp only
  | succ fuel ih =>
    intro keep total
    by_cases hle : total ≤ maxT
    · rw [truncLoop_of_le maxT minB keep total hle]
    · have hgt : maxT < total := Nat.not_le.mp hle
      rcases hf : find_two_largest minB keep with _ | ⟨i, j⟩
      · rw [truncLoop_of_none maxT minB keep total hf]
      · have hspec := find_two_largest_some minB keep i j hf
        have hfloor := shaveAmount_le_floor maxT minB (keep.getD i 0) (keep.getD j 0)
          total hspec.2
        have hneed := shaveAmount_le_needed maxT minB (keep.getD i 0) (keep.getD j 0)
          total
        have hsum := sum_set_sub keep i
          (shaveAmount maxT minB (keep.getD i 0) (keep.getD j 0) total) hspec.1
          (by omega)
        rw [truncLoop_step maxT minB total fuel keep i j hgt hf]
        have := ih
          (keep.set i
            (keep.getD i 0 - shaveAmount maxT minB (keep.getD i 0) (keep.getD j 0) total))
          (total - shaveAmount maxT minB (keep.getD i 0) (keep.getD j 0) total)
        omega

/-- The loop keeps every body's kept count between
`min minB (its original count)` and its original count. -/
theorem truncLoop_keep_inv (maxT minB : Nat) (init : List Nat) :
    ∀ fuel keep total,
      keep.length = init.length →
      (∀ k, keep.getD k 0 ≤ init.getD k 0 ∧
        min minB (init.getD k 0) ≤ keep.getD k 0) →
      (truncLoop maxT minB fuel keep total).1.length = init.length ∧
      ∀ k, (truncLoop maxT minB fuel keep total).1.getD k 0 ≤ init.getD k 0 ∧
        min minB (init.getD k 0) ≤ (truncLoop maxT minB fuel keep total).1.getD k 0 := by
  intro fuel
  induction fuel with
  | zero => intro keep total hlen hinv; exact ⟨hlen, hinv⟩
  | succ fuel ih =>
    intro keep total hlen hinv
    by_cases hle : total ≤ maxT
    · rw [truncLoop_of_le maxT minB keep total hle]
      exact ⟨hlen, hinv⟩
    · have hgt : maxT < total := Nat.not_le.mp hle
      rcases hf : find_two_largest minB keep with _ | ⟨i, j⟩
      · rw [truncLoop_of_none maxT minB keep total hf]
        exact ⟨hlen, hinv⟩
      · have hspec := find_two_largest_some minB keep i j hf
        have hfloor := shaveAmount_le_floor maxT minB (keep.getD i 0) (keep.getD j 0)
          total hspec.2
        rw [truncLoop_step maxT minB total fuel keep i j hgt hf]
        refine ih _ _ (by simpa using hlen) ?_
        intro k
        by_cases hk : k = i
        · subst hk
          rw [getD_set_self keep k _ hspec.1]
          refine ⟨le_trans (Nat.sub_le _ _) (hinv k).1, ?_⟩
          have h1 : minB ≤ keep.getD k 0 -
              shaveAmount maxT minB (keep.getD k 0) (keep.getD j 0) total := by
            omega
          have h2 : min minB (init.getD k 0) ≤ minB := Nat.min_le_left _ _
          omega
        · rw [getD_set_ne keep i k _ hk]
          exact hinv k

/-- Fuel irrelevance: any fuel of at least `total - maxT` computes the same
final state — the Rust `while` loop terminates with that state. -/
theorem truncLoop_fuel_irrel (maxT minB : Nat) :
    ∀ total fuel₁ fuel₂ keep, total - maxT ≤ fuel₁ → total - maxT ≤ fuel₂ →
      truncLoop maxT minB fuel₁ keep total = truncLoop maxT minB fuel₂ keep total := by
  intro total
  induction total using Nat.strong_induction_on with
  | _ total ih =>
    intro fuel₁ fuel₂ keep h1 h2
    by_cases hle : total ≤ maxT
    · rw [truncLoop_of_le maxT minB keep total hle, truncLoop_of_le maxT minB keep total hle]
    · have hgt : maxT < total := Nat.not_le.mp hle
      cases fuel₁ with
      | zero => omega
      | succ f1 =>
        cases fuel₂ with
        | zero => omega
        | succ f2 =>
          rcases hf : find_two_largest minB keep with _ | ⟨i, j⟩
          · rw [truncLoop_of_none maxT minB keep total hf,
              truncLoop_of_none maxT minB keep total hf]
          · have hspec := find_two_largest_some minB keep i j hf
            have hpos := shaveAmount_pos maxT minB (keep.getD i 0) (keep.getD j 0)
              total hgt hspec.2
            rw [truncLoop_step maxT minB total f1 keep i j hgt hf,
              truncLoop_step maxT minB total f2 keep i j hgt hf]
            exact ih _ (by omega) f1 f2 _ (by omega) (by omega)

/-! ## Claim theorems: truncation budget and termination -/

/-- C3 (counterexample): one article with a 100-token title and a 10-token
body, with `maxTotalTokens = 90`, `minBodyTokens = 40`, `sep = 6`: the loop
finishes over budget (116 > 90) yet the body's kept count is 10, not the
40-token floor — a body that starts below the floor never reaches it. -/
theorem trunc_floors_counterexample :
    ¬ (100 + (truncPlan 90 40 6 [100] [10]).1.sum + 6 * 1 ≤ 90 ∨
       ∀ x ∈ (truncPlan 90 40 6 [100] [10]).1, x = 40) := by
  decide

/-- C3 (amended): when the truncation loop finishes, either the total token
estimate (titles + kept bodies + separators) is within `maxTotalTokens`, or no
body's kept token count exceeds `minBodyTokens` (no trimmable body remains
above the floor). -/
theorem trunc_fits_or_floors (maxT minB sep : Nat) (title_tok body_tok : List Nat) :
    title_tok.sum + (truncPlan maxT minB sep title_tok body_tok).1.sum +
      sep * body_tok.length ≤ maxT ∨
    ∀ x ∈ (truncPlan maxT minB sep title_tok body_tok).1, x ≤ minB := by
  unfold truncPlan
  dsimp only
  set SP := sep * body_tok.length with hSP
  by_cases hle : title_tok.sum + body_tok.sum + SP ≤ maxT
  · rw [if_pos hle]
    exact Or.inl hle
  · rw [if_neg hle]
    set total := title_tok.sum + body_tok.sum + SP with ht
    have hexit := truncLoop_exit_cond maxT minB total body_tok total (Nat.sub_le _ _)
    have hsum := truncLoop_total_sum maxT minB total body_tok total
    rcases hexit with h2 | h2
    · exact Or.inl (by omega)
    · exact Or.inr h2

/-- C6: a body's kept token count never exceeds its original token count, and
never drops below `minBodyTokens` — except that a body whose original count was
already below the floor simply keeps its original count. -/
theorem trunc_keep_monotone (maxT minB sep : Nat) (title_tok body_tok : List Nat)
    (i : Nat) :
    (truncPlan maxT minB sep title_tok body_tok).1.getD i 0 ≤ body_tok.getD i 0 ∧
    min minB (body_tok.getD i 0) ≤
      (truncPlan maxT minB sep title_tok body_tok).1.getD i 0 := by
  unfold truncPlan
  dsimp only
  by_cases hle : title_tok.sum + body_tok.sum + sep * body_tok.length ≤ maxT
  · rw [if_pos hle]
    exact ⟨le_refl _, Nat.min_le_right _ _⟩
  · rw [if_neg hle]
    exact (truncLoop_keep_inv maxT minB body_tok _ body_tok _ rfl
      (fun k => ⟨le_refl _, Nat.min_le_right _ _⟩)).2 i

/-- C9: every iteration of the truncation loop that does not exit shaves at
least one token from the largest trimmable body (even when all trimmable
bodies are tied), the loop's result is independent of any sufficient fuel
(`total` always suffices, so the `while` loop terminates), and the final state
satisfies the exit condition: within budget or nothing above the floor. -/
theorem trunc_loop_terminates (maxT minB total : Nat) (keep : List Nat) (i j : Nat)
    (hgt : maxT < total) (hfind : find_two_largest minB keep = some (i, j)) :
    ∃ shave, 1 ≤ shave ∧
      (∀ fuel, truncLoop maxT minB (fuel + 1) keep total =
        truncLoop maxT minB fuel (keep.set i (keep.getD i 0 - shave)) (total - shave)) ∧
      (∀ fuel₁ fuel₂, total - maxT ≤ fuel₁ → total - maxT ≤ fuel₂ →
        truncLoop maxT minB fuel₁ keep total = truncLoop maxT minB fuel₂ keep total) ∧
      ((truncLoop maxT minB total keep total).2 ≤ maxT ∨
        ∀ x ∈ (truncLoop maxT minB total keep total).1, x ≤ minB) := by
  have hspec := find_two_largest_some minB keep i j hfind
  exact ⟨shaveAmount maxT minB (keep.getD i 0) (keep.getD j 0) total,
    shaveAmount_pos maxT minB (keep.getD i 0) (keep.getD j 0) total hgt hspec.2,
    fun fuel => truncLoop_step maxT minB total fuel keep i j hgt hfind,
    fun f1 f2 h1 h2 => truncLoop_fuel_irrel maxT minB total f1 f2 keep h1 h2,
    truncLoop_exit_cond maxT minB total keep total (Nat.sub_le _ _)⟩

/-- C9 (witness): the termination theorem at the concrete state
`keep = [5]`, `total = 5`, `maxT = 0`, `minB = 0`. -/
theorem trunc_loop_terminates_witness :
    ∃ shave, 1 ≤ shave ∧
      (∀ fuel, truncLoop 0 0 (fuel + 1) [5] 5 =
        truncLoop 0 0 fuel ([5].set 0 ([5].getD 0 0 - shave)) (5 - shave)) ∧
      (∀ fuel₁ fuel₂, 5 - 0 ≤ fuel₁ → 5 - 0 ≤ fuel₂ →
        truncLoop 0 0 fuel₁ [5] 5 = truncLoop 0 0 fuel₂ [5] 5) ∧
      ((truncLoop 0 0 5 [5] 5).2 ≤ 0 ∨ ∀ x ∈ (truncLoop 0 0 5 [5] 5).1, x ≤ 0) :=
  trunc_loop_terminates 0 0 5 [5] 0 0 (by decide) (by decide)

/-! ## Helper lemmas for the carryover query -/

/-- A fold of `max` over a list is below `g` iff `g` is positive and every
element is below `g`. -/
theorem foldr_max_lt_iff (l : List Nat) (g : Nat) :
    l.foldr max 0 < g ↔ (0 < g ∧ ∀ x ∈ l, x < g) := by
  induction l with
  | nil => simp
  | cons a t ih =>
    simp only [List.foldr_cons, List.mem_cons]
    constructor
    · intro hlt
      have h1 : a < g ∧ t.foldr max 0 < g := Nat.max_lt.mp hlt
      obtain ⟨h0, hall⟩ := ih.mp h1.2
      exact ⟨h0, fun x hx => hx.elim (fun e => e ▸ h1.1) (hall x)⟩
    · rintro ⟨h0, hall⟩
      exact Nat.max_lt.mpr
        ⟨hall a (Or.inl rfl), ih.mpr ⟨h0, fun x hx => hall x (Or.inr hx)⟩⟩

/-- A generation time is strictly after the `COALESCE`d last published time iff
it is positive (above the sentinel) and strictly after every published row's
generation time. -/
theorem last_published_lt_iff (st : Store) (g : Nat) :
    last_published_generated_at st < g ↔
      (0 < g ∧ ∀ p ∈ st.summaries, p.sent = true → p.generated_at < g) := by
  unfold last_published_generated_at
  rw [foldr_max_lt_iff]
  constructor
  · rintro ⟨h0, hall⟩
    refine ⟨h0, fun p hp hps => ?_⟩
    exact hall _ (List.mem_map_of_mem _ (List.mem_filter.mpr ⟨hp, hps⟩))
  · rintro ⟨h0, hall⟩
    refine ⟨h0, fun x hx => ?_⟩
    obtain ⟨p, hpf, rfl⟩ := List.mem_map.mp hx
    obtain ⟨hp, hps⟩ := List.mem_filter.mp hpf
    exact hall p hp hps

/-! ## Claim theorem: the carryover query -/

/-- C5: assuming every stored generation time is positive (real timestamps are
all above the query's RFC3339 sentinel), a bullet is returned by the carryover
query iff it is an `accepted = true` bullet of some unsent summary whose
generation time is strictly after every published summary's generation time —
which is "strictly after the most recent published fetch" when one exists, and
vacuously "all unsent fetches" when none has ever been published. -/
theorem carryover_query_spec (st : Store)
    (h : ∀ s ∈ st.summaries, 0 < s.generated_at) (bl : Bullet) :
    bl ∈ fetch_unpublished_accepted_bullets_since_last_published st ↔
      (bl.accepted = some true ∧
       ∃ b ∈ st.bullets, ∃ s ∈ st.summaries,
         b.text = bl.text ∧ b.accepted = some true ∧ s.fetch_id = b.fetch_id ∧
         s.sent = false ∧
         ∀ p ∈ st.summaries, p.sent = true → p.generated_at < s.generated_at) := by
  unfold fetch_unpublished_accepted_bullets_since_last_published
  dsimp only
  rw [List.mem_dedup]
  constructor
  · intro hmem
    obtain ⟨pr, hpr, hbl⟩ := List.mem_map.mp hmem
    obtain ⟨hprj, hcond⟩ := List.mem_filter.mp hpr
    have hcond' : pr.2.sent = false ∧ pr.1.accepted = some true ∧
        last_published_generated_at st < pr.2.generated_at :=
      of_decide_eq_true hcond
    obtain ⟨b, hb, hpair⟩ := List.mem_flatMap.mp hprj
    obtain ⟨s, hsf, hps⟩ := List.mem_map.mp hpair
    obtain ⟨hs, hsfid⟩ := List.mem_filter.mp hsf
    have hfid : s.fetch_id = b.fetch_id := by simpa using hsfid
    subst hps
    refine ⟨?_, b, hb, s, hs, ?_, hcond'.2.1, hfid, hcond'.1, ?_⟩
    · rw [← hbl]
      exact hcond'.2.1
    · rw [← hbl]
    · exact ((last_published_lt_iff st s.generated_at).mp hcond'.2.2).2
  · rintro ⟨hacc, b, hb, s, hs, htext, hbacc, hfid, hsent, hall⟩
    refine List.mem_map.mpr ⟨(b, s), ?_, ?_⟩
    · refine List.mem_filter.mpr ⟨?_, ?_⟩
      · exact List.mem_flatMap.mpr
          ⟨b, hb, List.mem_map.mpr ⟨s, List.mem_filter.mpr ⟨hs, by simp [hfid]⟩, rfl⟩⟩
      · refine decide_eq_true ⟨hsent, hbacc, ?_⟩
        exact (last_published_lt_iff st s.generated_at).mpr ⟨h s hs, hall⟩
    · cases bl with
      | mk t a =>
        simp only at htext hacc ⊢
        rw [htext, hbacc, hacc]

/-- C5 (witness): the query characterization at a concrete store with one
published summary (time 5) and one later unsent summary (time 7) owning an
accepted bullet, which the query must return. -/
theorem carryover_query_witness :
    (⟨"X", some true⟩ : Bullet) ∈
      fetch_unpublished_accepted_bullets_since_last_published
        ⟨[⟨1, "m1", true, 5⟩, ⟨2, "m2", false, 7⟩], [⟨0, 2, "X", some true⟩]⟩ :=
  (carryover_query_spec
      ⟨[⟨1, "m1", true, 5⟩, ⟨2, "m2", false, 7⟩], [⟨0, 2, "X", some true⟩]⟩
      (by decide) ⟨"X", some true⟩).mpr
    ⟨rfl, ⟨0, 2, "X", some true⟩, by decide, ⟨2, "m2", false, 7⟩, by decide,
      rfl, rfl, rfl, rfl, by decide⟩

end LFC
